import Mathlib


/-!
Shallow embedding of `src/skip_list.rs` (repository `masonblier/litcode`).

The Rust skip list stores, per layer, an append-only arena `Vec<SkipListNode<T>>`
together with an optional head index.  Links (`next`, `down`) are plain `usize`
indexes into the arenas.  We embed the element type `T` as `Int` (the repository
instantiates it at `i64` in its test), machine indexes as `Nat`, and the arenas as
`List SkipListNode`.

Fallible parts are made explicit: every arena access `self.layers[k][i]` is an
`Option`-returning lookup (`getElem?`), so an out-of-range index — a panic in
Rust — surfaces as `none`.  The unbounded `loop { ... }` that advances along
`next` links is given fuel equal to the arena length of the layer being walked;
running out of fuel also surfaces as `none`.  Randomness is made explicit: the
draw `rand::rng().random_range(0..SKIP_LIST_LAYERS)` becomes a parameter
`r : Fin SKIP_LIST_LAYERS` of `insert`.
-/


/-!
## Chains

A layer's linked sequence, as the list of `(index, node)` pairs visited by
following `next` links from a start index until `None`.  This is the abstract
view of a layer used by the invariant: the Rust loops traverse exactly such a
chain when the structure is well formed.
-/


/-!
## The reachable-state invariant

`GoodView s L` says that `L k` is the chain of layer `k`, that its indexes are a
permutation of the whole arena (every arena slot is linked into its layer's
chain, with no cycles), that base-layer nodes have no `down`, and that `down`
links of upper layers land on a chain member of the layer below with equal
value.
-/


/-- Rust: `const SKIP_LIST_LAYERS: usize = 3;`. -/
def SKIP_LIST_LAYERS : Nat := 3


/-- Rust: `struct SkipListNode<T> { value: T, next: Option<usize>, down: Option<usize> }`. -/
structure SkipListNode where
  value : Int
  next : Option Nat
  down : Option Nat
deriving DecidableEq, Repr


/-- Rust: `pub struct SkipList<T>` with per-layer arenas `layers: [Vec<SkipListNode<T>>; SKIP_LIST_LAYERS]` and `head: [Option<usize>; SKIP_LIST_LAYERS]`. -/
structure SkipList where
  layers : List (List SkipListNode)
  head : List (Option Nat)
deriving DecidableEq, Repr


/-- Reading `self.layers[k]`.  The Rust `layers` field is a fixed-size array `[_; 3]`,
so indexing it with `k < 3` can never fail; we use `getD` with default `[]`. -/
def layerOf (s : SkipList) (k : Nat) : List SkipListNode := s.layers.getD k []


/-- Reading `self.head[k]`, same remark as `layerOf`. -/
def headOf (s : SkipList) (k : Nat) : Option Nat := s.head.getD k none


/-- Rust: `impl Default for SkipList<T>`: all layers empty, all heads `None`. -/
def SkipList.default : SkipList :=
  { layers := List.replicate SKIP_LIST_LAYERS []
    head := List.replicate SKIP_LIST_LAYERS none }


/-- The `loop { ... }` shared verbatim by `insert` (lines 130-143) and `contains`
(lines 205-217): starting from `node_idx = i`, repeatedly read
`next_idx = arena[node_idx].next`; stop on `None` or when `v < arena[next_idx].value`,
else `node_idx = next_idx`.  Returns the index the loop stops at.  The loop is
unbounded in Rust; here it carries fuel (instantiated with the arena length by
the callers), and exhausted fuel or an out-of-range index yields `none`. -/
def advance (arena : List SkipListNode) (v : Int) : Nat → Nat → Option Nat
  | _, 0 => none
  | i, fuel + 1 =>
    match arena[i]? with
    | none => none
    | some nd =>
      match nd.next with
      | none => some i
      | some nidx =>
        match arena[nidx]? with
        | none => none
        | some nnd => if v < nnd.value then some i else advance arena v nidx fuel


/-- Outcome of one iteration of the per-layer loop of `insert` (lines 113-150). -/
inductive LayerOutcome where
  | err : LayerOutcome
  | dup : LayerOutcome
  | front : LayerOutcome
  | after (j : Nat) (down : Option Nat) : LayerOutcome
deriving DecidableEq, Repr


/-- Body of the per-layer loop of `insert`, lines 115-149: front insertion when
`node_idx.is_none() || v < arena[node_idx].value`; duplicate abort when
`v == arena[node_idx].value`; otherwise advance along `next` and record the found
node together with its `down` link. -/
def layerFind (arena : List SkipListNode) (v : Int) (layerStart : Option Nat) : LayerOutcome :=
  match layerStart with
  | none => .front
  | some i =>
    match arena[i]? with
    | none => .err
    | some nd =>
      if v < nd.value then .front
      else if v = nd.value then .dup
      else
        match advance arena v i arena.length with
        | none => .err
        | some j =>
          match arena[j]? with
          | none => .err
          | some ndj => .after j ndj.down


/-- The `for rlayer in 0..SKIP_LIST_LAYERS` loop of `insert` (lines 113-150),
walking `layer = SKIP_LIST_LAYERS-1-rlayer` downwards.  Result:
`none` = internal error (Rust panic), `some none` = duplicate detected and the
whole insert aborted (line 126), `some (some il)` = the recorded `insert_list`.
In the front case at `layer > 0` the next start index is `head[layer-1]`
(line 121); in the found case it is the found node's `down` (line 148). -/
def findLoop (s : SkipList) (v : Int) :
    Nat → Option Nat → List (Option Nat) → Option (Option (List (Option Nat)))
  | 0, layerStart, insertList =>
    match layerFind (layerOf s 0) v layerStart with
    | .err => none
    | .dup => some none
    | .front => some (some (insertList.set 0 none))
    | .after j _ => some (some (insertList.set 0 (some j)))
  | l + 1, layerStart, insertList =>
    match layerFind (layerOf s (l + 1)) v layerStart with
    | .err => none
    | .dup => some none
    | .front => findLoop s v l (headOf s l) (insertList.set (l + 1) none)
    | .after j down => findLoop s v l down (insertList.set (l + 1) (some j))


/-- Body of the splice loop of `insert`, lines 160-181, for one `layer`: read the
old `next` of the insert-parent (or the head), push the new node, then redirect
the parent's `next` (or the head) to it.  Returns the updated list and the new
`last_insert`. -/
def spliceStep (v : Int) (s : SkipList) (insertList : List (Option Nat))
    (lastInsert : Option Nat) (layer : Nat) : Option (SkipList × Option Nat) :=
  let arena := layerOf s layer
  match insertList.getD layer none with
  | some insertIdx =>
    match arena[insertIdx]? with
    | none => none
    | some nd =>
      let arena1 := arena ++ [⟨v, nd.next, lastInsert⟩]
      let li : Option Nat := some (arena1.length - 1)
      let arena2 := arena1.set insertIdx { nd with next := li }
      some ({ s with layers := s.layers.set layer arena2 }, li)
  | none =>
    let arena1 := arena ++ [⟨v, headOf s layer, lastInsert⟩]
    let li : Option Nat := some (arena1.length - 1)
    some ({ layers := s.layers.set layer arena1, head := s.head.set layer li }, li)


/-- The `for layer in 0..num_insert_layers` splice loop of `insert` (lines 159-182). -/
def spliceLoop (v : Int) : SkipList → List (Option Nat) → Option Nat → Nat → Nat → Option SkipList
  | s, _, _, _, 0 => some s
  | s, insertList, lastInsert, layer, rem + 1 =>
    match spliceStep v s insertList lastInsert layer with
    | none => none
    | some (s1, li) => spliceLoop v s1 insertList li (layer + 1) rem


/-- Rust: `pub fn insert(&mut self, v: T)`, lines 97-183.  The random draw
`rand::rng().random_range(0..SKIP_LIST_LAYERS)` is the explicit parameter `r`;
`num_insert_layers` is `SKIP_LIST_LAYERS` when `head[0]` is `None` and `1 + r`
otherwise (lines 99-104). -/
def SkipList.insert (s : SkipList) (v : Int) (r : Fin SKIP_LIST_LAYERS) : Option SkipList :=
  let numInsertLayers := if (headOf s 0).isNone then SKIP_LIST_LAYERS else 1 + r.val
  match findLoop s v (SKIP_LIST_LAYERS - 1) (headOf s (SKIP_LIST_LAYERS - 1))
      (List.replicate SKIP_LIST_LAYERS none) with
  | none => none
  | some none => some s
  | some (some insertList) => spliceLoop v s insertList none 0 numInsertLayers


/-- Outcome of one iteration of the per-layer loop of `contains` (lines 193-220). -/
inductive ContainsOutcome where
  | err : ContainsOutcome
  | empty : ContainsOutcome
  | found : ContainsOutcome
  | descend (down : Option Nat) : ContainsOutcome
deriving DecidableEq, Repr


/-- Body of the per-layer loop of `contains`, lines 195-219: return false if the
start index is `None` (line 197), true on an immediate match (line 201), else
advance along `next` and descend through the last node's `down` (line 219). -/
def layerContains (arena : List SkipListNode) (v : Int) (layerStart : Option Nat) :
    ContainsOutcome :=
  match layerStart with
  | none => .empty
  | some i =>
    match arena[i]? with
    | none => .err
    | some nd =>
      if v = nd.value then .found
      else
        match advance arena v i arena.length with
        | none => .err
        | some j =>
          match arena[j]? with
          | none => .err
          | some ndj => .descend ndj.down


/-- The `for rlayer in 0..SKIP_LIST_LAYERS` loop of `contains` (lines 193-222);
after the base layer's iteration the loop ends and `false` is returned. -/
def containsLoop (s : SkipList) (v : Int) : Nat → Option Nat → Option Bool
  | 0, layerStart =>
    match layerContains (layerOf s 0) v layerStart with
    | .err => none
    | .empty => some false
    | .found => some true
    | .descend _ => some false
  | l + 1, layerStart =>
    match layerContains (layerOf s (l + 1)) v layerStart with
    | .err => none
    | .empty => some false
    | .found => some true
    | .descend down => containsLoop s v l down


/-- Rust: `pub fn contains(&self, v: T) -> bool`, lines 189-223. -/
def SkipList.contains (s : SkipList) (v : Int) : Option Bool :=
  containsLoop s v (SKIP_LIST_LAYERS - 1) (headOf s (SKIP_LIST_LAYERS - 1))


/-- The `while node_idx.is_some()` traversal of `fmt` (lines 238-243) collecting
`base_list`, generalized to any layer: the value sequence of the chain starting
at `start`.  Fuel bounds the loop as in `advance`. -/
def chainVals (arena : List SkipListNode) : Option Nat → Nat → Option (List Int)
  | none, _ => some []
  | some _, 0 => none
  | some i, fuel + 1 =>
    match arena[i]? with
    | none => none
    | some nd => (chainVals arena nd.next fuel).map (nd.value :: ·)


/-- The `for b in &base_list` loop of `fmt` (lines 248-260) for one upper layer,
walking the layer chain in lock-step with the base values.  Each cell is
`some value` where the Rust code prints the value and `none` where it prints
blanks; the `{:02}` string formatting itself is presentation detail and is
abstracted into these cells. -/
def layerLine (arena : List SkipListNode) : List Int → Option Nat → Option (List (Option Int))
  | [], _ => some []
  | b :: bs, nodeIdx =>
    match nodeIdx with
    | some i =>
      match arena[i]? with
      | none => none
      | some nd =>
        if b = nd.value then (layerLine arena bs nd.next).map (some nd.value :: ·)
        else (layerLine arena bs nodeIdx).map (none :: ·)
    | none => (layerLine arena bs none).map (none :: ·)


/-- The `(1..SKIP_LIST_LAYERS).map(|rlayer| { let layer = SKIP_LIST_LAYERS - rlayer; ... })`
of `fmt` (lines 244-263): one line per upper layer, sparsest (`layer = 2`) first. -/
def renderLines (s : SkipList) (baseList : List Int) : Nat → Option (List (List (Option Int)))
  | 0 => some []
  | rem + 1 =>
    match layerLine (layerOf s (rem + 1)) baseList (headOf s (rem + 1)) with
    | none => none
    | some line =>
      match renderLines s baseList rem with
      | none => none
      | some rest => some (line :: rest)


/-- Rust: `impl fmt::Display for SkipList<T>` (lines 236-268), as a structured value:
the per-upper-layer cell lines followed by the base value list. -/
def SkipList.render (s : SkipList) : Option (List (List (Option Int)) × List Int) :=
  match chainVals (layerOf s 0) (headOf s 0) (layerOf s 0).length with
  | none => none
  | some baseList =>
    match renderLines s baseList (SKIP_LIST_LAYERS - 1) with
    | none => none
    | some lines => some (lines, baseList)


/-- The random draw `0` (so `num_insert_layers = 1` on a non-empty list). -/
def draw0 : Fin SKIP_LIST_LAYERS := ⟨0, by decide⟩


/-- The random draw `1` (so `num_insert_layers = 2` on a non-empty list). -/
def draw1 : Fin SKIP_LIST_LAYERS := ⟨1, by decide⟩


/-- The random draw `2` (so `num_insert_layers = 3` on a non-empty list). -/
def draw2 : Fin SKIP_LIST_LAYERS := ⟨2, by decide⟩


/-- Run a finite sequence of `insert` calls (each with its random draw) starting
from the freshly constructed list. -/
def run (ops : List (Int × Fin SKIP_LIST_LAYERS)) : Option SkipList :=
  ops.foldl (fun acc p => acc.bind (fun s => s.insert p.1 p.2)) (some SkipList.default)


/-- A state reachable from the empty skip list by some sequence of inserts. -/
def Reachable (s : SkipList) : Prop := ∃ ops, run ops = some s


/-- Proposition `ChainNodes arena start l`: following `next` links from `start` visits
exactly the `(index, node)` pairs in `l` and ends at `None`. -/
inductive ChainNodes (arena : List SkipListNode) : Option Nat → List (Nat × SkipListNode) → Prop
  | nil : ChainNodes arena none []
  | cons {i : Nat} {nd : SkipListNode} {l : List (Nat × SkipListNode)} :
      arena[i]? = some nd → ChainNodes arena nd.next l →
      ChainNodes arena (some i) ((i, nd) :: l)


/-- Every node of the upper chain has a `down` handle resolving to a member of
the lower chain holding an equal value. -/
def DownsOK (upper lower : List (Nat × SkipListNode)) : Prop :=
  ∀ p ∈ upper, ∃ j nd2, (Prod.snd p).down = some j ∧ (j, nd2) ∈ lower ∧
    nd2.value = (Prod.snd p).value


/-- View `L` lists the chains of all layers of `s`, covering the arenas, with the
`down`-link discipline. -/
def GoodView (s : SkipList) (L : Nat → List (Nat × SkipListNode)) : Prop :=
  (∀ k, k < SKIP_LIST_LAYERS → ChainNodes (layerOf s k) (headOf s k) (L k) ∧
    ((L k).map Prod.fst).Perm (List.range (layerOf s k).length)) ∧
  (∀ p ∈ L 0, (Prod.snd p).down = none) ∧
  (∀ k, 1 ≤ k → k < SKIP_LIST_LAYERS → DownsOK (L k) (L (k - 1)))


/-- The master invariant of reachable states. -/
def SkipInv (s : SkipList) : Prop :=
  s.layers.length = SKIP_LIST_LAYERS ∧ s.head.length = SKIP_LIST_LAYERS ∧
  (∀ k, 1 ≤ k → k < SKIP_LIST_LAYERS →
    (layerOf s k).length ≤ (layerOf s (k - 1)).length) ∧
  ∃ L, GoodView s L


/-- Valid starting points of a per-layer walk: absent, or a member of the
layer's chain. -/
def StartOK (c : List (Nat × SkipListNode)) (st : Option Nat) : Prop :=
  st = none ∨ ∃ i nd, st = some i ∧ (i, nd) ∈ c


/-- Valid `insert_list` entries: absent, or a member of the layer's chain. -/
def ILOK (L : Nat → List (Nat × SkipListNode)) (k : Nat) (e : Option Nat) : Prop :=
  e = none ∨ ∃ i nd, e = some i ∧ (i, nd) ∈ L k


/-- Pointwise update of a view at one layer. -/
def updL (L : Nat → List (Nat × SkipListNode)) (k : Nat)
    (c : List (Nat × SkipListNode)) : Nat → List (Nat × SkipListNode) :=
  fun m => if m = k then c else L m


/-- What one splice iteration does to one layer (`insert`, lines 160-181): one
node holding `v` is appended; either the layer head is redirected to it (front
case) or the `next` of exactly one pre-existing node is (found case); every
pre-existing slot keeps its `value` and `down`. -/
def FrameLayer (v : Int) (oldA : List SkipListNode) (oldH : Option Nat)
    (newA : List SkipListNode) (newH : Option Nat) : Prop :=
  newA.length = oldA.length + 1 ∧
  (∃ nd : SkipListNode, nd.value = v ∧
    ((newA = oldA ++ [nd] ∧ newH = some oldA.length) ∨
     (∃ i ndOld, oldA[i]? = some ndOld ∧
        newA = (oldA ++ [nd]).set i { ndOld with next := some oldA.length } ∧
        newH = oldH))) ∧
  (∀ (jj : Nat) (ndo : SkipListNode), oldA[jj]? = some ndo →
    ∃ ndn : SkipListNode, newA[jj]? = some ndn ∧
      ndn.value = ndo.value ∧ ndn.down = ndo.down)


/-- Pure rendering of one upper-layer line from the base value sequence and the
layer's own value sequence (the lock-step walk of `fmt`, lines 248-260, as a
function of the traversal contents only). -/
def lineOfVals : List Int → List Int → List (Option Int)
  | [], _ => []
  | b :: bs, w :: ws =>
    if b = w then some w :: lineOfVals bs ws else none :: lineOfVals bs (w :: ws)
  | _ :: bs, [] => none :: lineOfVals bs []


/-- Follow `down` links from a node of layer `k` to the base layer and return
the base node reached (`None` on a missing link or slot). -/
def resolveDown (s : SkipList) : Nat → Option Nat → Option SkipListNode
  | k, st =>
    match st with
    | none => none
    | some i =>
      match (layerOf s k)[i]? with
      | none => none
      | some nd =>
        match k with
        | 0 => some nd
        | l + 1 => resolveDown s l nd.down


/-- The base node reached by following `down` links from layer `k`'s head. -/
def headDownChain (s : SkipList) (k : Nat) : Option SkipListNode :=
  resolveDown s k (headOf s k)


/-- The layer-subset discipline of the claims: base-layer nodes carry no `down`
handle, and every chain node of an upper layer has a `down` handle resolving to
a chain node of the layer below with an equal value. -/
def DownLinksOK (s : SkipList) : Prop :=
  (∀ l0, ChainNodes (layerOf s 0) (headOf s 0) l0 → ∀ p ∈ l0, (Prod.snd p).down = none) ∧
  (∀ k, 1 ≤ k → k < SKIP_LIST_LAYERS → ∀ lu ll,
    ChainNodes (layerOf s k) (headOf s k) lu →
    ChainNodes (layerOf s (k - 1)) (headOf s (k - 1)) ll →
    ∀ p ∈ lu, ∃ j nd2, (Prod.snd p).down = some j ∧ (j, nd2) ∈ ll ∧
      nd2.value = (Prod.snd p).value)


/-- Validity of every stored handle: heads and `next` links index into their own
layer's arena, `down` links of layer `k > 0` index into layer `k-1`'s arena. -/
def HandleInv (s : SkipList) : Prop :=
  (∀ k, k < SKIP_LIST_LAYERS → ∀ i, headOf s k = some i → i < (layerOf s k).length) ∧
  (∀ k, k < SKIP_LIST_LAYERS → ∀ nd ∈ layerOf s k,
    ∀ m, nd.next = some m → m < (layerOf s k).length) ∧
  (∀ k, 1 ≤ k → k < SKIP_LIST_LAYERS → ∀ nd ∈ layerOf s k,
    ∀ m, nd.down = some m → m < (layerOf s (k - 1)).length)


/-- The state reached by inserting 5 (first insert, all layers) and then 2 with
random draw 1 (layers 0 and 1); used to instantiate the reachability-conditioned
theorems at a concrete input. -/
def sTwo : SkipList :=
  { layers := [[⟨5, none, none⟩, ⟨2, some 0, none⟩],
               [⟨5, none, some 0⟩, ⟨2, some 0, some 1⟩],
               [⟨5, none, some 0⟩]],
    head := [some 1, some 1, some 0] }


/-- A chain from a given start is unique. -/
theorem chainNodes_det {arena : List SkipListNode} {st : Option Nat}
    {l1 l2 : List (Nat × SkipListNode)} (h1 : ChainNodes arena st l1)
    (h2 : ChainNodes arena st l2) : l1 = l2 := by
  induction h1 generalizing l2 with
  | nil => cases h2; rfl
  | cons hget _ ih =>
    cases h2 with
    | cons hget2 htl2 =>
      rw [hget] at hget2
      cases hget2
      rw [ih htl2]


/-- Every pair on a chain is a valid arena lookup. -/
theorem chainNodes_lookup {arena : List SkipListNode} {st : Option Nat}
    {l : List (Nat × SkipListNode)} (h : ChainNodes arena st l) :
    ∀ p ∈ l, arena[p.1]? = some p.2 := by
  induction h with
  | nil => intro p hp; cases hp
  | cons hget _ ih =>
    intro p hp
    rcases List.mem_cons.mp hp with rfl | hp
    · exact hget
    · exact ih p hp


/-- The chain starting at any member of a chain is the suffix of that chain
from the member on. -/
theorem chainNodes_suffix_of_mem {arena : List SkipListNode} {st : Option Nat}
    {l : List (Nat × SkipListNode)} (h : ChainNodes arena st l) :
    ∀ p ∈ l, ∃ pre suf, l = pre ++ (p :: suf) ∧ ChainNodes arena (some p.1) (p :: suf) := by
  induction h with
  | nil => intro p hp; cases hp
  | @cons i nd l hget htl ih =>
    intro p hp
    rcases List.mem_cons.mp hp with rfl | hp
    · exact ⟨[], l, rfl, ChainNodes.cons hget htl⟩
    · obtain ⟨pre, suf, heq, hch⟩ := ih p hp
      exact ⟨(i, nd) :: pre, suf, by rw [heq]; rfl, hch⟩


/-- Appending to the arena does not disturb an existing chain. -/
theorem chainNodes_append {arena : List SkipListNode} {st : Option Nat}
    {l : List (Nat × SkipListNode)} (x : SkipListNode) (h : ChainNodes arena st l) :
    ChainNodes (arena ++ [x]) st l := by
  induction h with
  | nil => exact ChainNodes.nil
  | @cons i nd l hget _ ih =>
    have hlt : i < arena.length := (List.getElem?_eq_some.mp hget).1
    exact ChainNodes.cons (by rw [List.getElem?_append_left hlt]; exact hget) ih


/-- Overwriting an arena slot whose index does not occur on a chain does not
disturb that chain. -/
theorem chainNodes_set {arena : List SkipListNode} {st : Option Nat}
    {l : List (Nat × SkipListNode)} {i : Nat} (y : SkipListNode)
    (h : ChainNodes arena st l) (hni : ∀ p ∈ l, p.1 ≠ i) :
    ChainNodes (arena.set i y) st l := by
  induction h with
  | nil => exact ChainNodes.nil
  | @cons j nd l hget _ ih =>
    have hji : i ≠ j := fun he => hni (j, nd) (List.mem_cons_self _ _) he.symm
    exact ChainNodes.cons (by rw [List.getElem?_set_ne hji]; exact hget)
      (ih fun p hp => hni p (List.mem_cons_of_mem _ hp))



theorem chainNodes_splice_head {arena : List SkipListNode} {hd : Option Nat}
    {l : List (Nat × SkipListNode)} (v : Int) (d : Option Nat)
    (h : ChainNodes arena hd l) :
    ChainNodes (arena ++ [⟨v, hd, d⟩]) (some arena.length)
      ((arena.length, ⟨v, hd, d⟩) :: l) :=
  ChainNodes.cons (List.getElem?_concat_length arena _) (chainNodes_append _ h)


theorem chainNodes_splice_after {arena : List SkipListNode} {st : Option Nat}
    {A B : List (Nat × SkipListNode)} {i : Nat} {nd : SkipListNode} (v : Int) (d : Option Nat)
    (h : ChainNodes arena st (A ++ (i, nd) :: B))
    (hnd : ((A ++ (i, nd) :: B).map Prod.fst).Nodup) :
    ChainNodes ((arena ++ [(⟨v, nd.next, d⟩ : SkipListNode)]).set i
        { nd with next := some arena.length }) st
      (A ++ (i, { nd with next := some arena.length }) ::
        (arena.length, (⟨v, nd.next, d⟩ : SkipListNode)) :: B) := by
  induction A generalizing st with
  | nil =>
    simp only [List.nil_append] at h hnd ⊢
    cases h with
    | cons hget htl =>
      have hi : i < arena.length := (List.getElem?_eq_some.mp hget).1
      simp only [List.map_cons, List.nodup_cons] at hnd
      have hbne : ∀ p ∈ B, p.1 ≠ i := by
        intro p hp he
        exact hnd.1 (he ▸ List.mem_map_of_mem Prod.fst hp)
      refine ChainNodes.cons ?_ (ChainNodes.cons ?_ ?_)
      · exact List.getElem?_set_eq_of_lt _ (by simp; omega)
      · rw [List.getElem?_set_ne (Nat.ne_of_lt hi)]
        exact List.getElem?_concat_length arena _
      · exact chainNodes_set _ (chainNodes_append _ htl) hbne
  | cons q A ih =>
    obtain ⟨a, nda⟩ := q
    simp only [List.cons_append] at h hnd ⊢
    cases h with
    | cons hget htl =>
      simp only [List.map_cons, List.nodup_cons] at hnd
      have hai : a ≠ i := by
        intro he
        apply hnd.1
        rw [he]
        exact List.mem_map.mpr
          ⟨(i, nd), List.mem_append.mpr (Or.inr (List.mem_cons_self _ _)), rfl⟩
      have ha : a < arena.length := (List.getElem?_eq_some.mp hget).1
      refine ChainNodes.cons ?_ (ih htl hnd.2)
      rw [List.getElem?_set_ne (Ne.symm hai), List.getElem?_append_left ha]
      exact hget


theorem advance_chain {arena : List SkipListNode} {v : Int} {i : Nat}
    {suf : List (Nat × SkipListNode)} {fuel : Nat}
    (h : ChainNodes arena (some i) suf) (hfuel : suf.length ≤ fuel) :
    ∃ j ndj suf2, advance arena v i fuel = some j ∧
      ChainNodes arena (some j) ((j, ndj) :: suf2) ∧ ((j, ndj) :: suf2) <:+ suf := by
  induction fuel generalizing i suf with
  | zero =>
    cases h with
    | cons hget htl => simp at hfuel
  | succ f ih =>
    cases h with
    | @cons _ nd l hget htl =>
      match hnext : nd.next with
      | none =>
        refine ⟨i, nd, l, ?_, ChainNodes.cons hget htl, List.suffix_refl _⟩
        simp [advance, hget, hnext]
      | some nidx =>
        rw [hnext] at htl
        cases htl with
        | @cons _ nnd l2 hget2 htl2 =>
          by_cases hv : v < nnd.value
          · refine ⟨i, nd, (nidx, nnd) :: l2, ?_, ?_, List.suffix_refl _⟩
            · simp [advance, hget, hnext, hget2, hv]
            · exact ChainNodes.cons hget (hnext ▸ ChainNodes.cons hget2 htl2)
          · have hlen : ((nidx, nnd) :: l2).length ≤ f := by
              simp at hfuel ⊢; omega
            obtain ⟨j, ndj, suf2, hadv, hch, hsuf⟩ := ih (ChainNodes.cons hget2 htl2) hlen
            refine ⟨j, ndj, suf2, ?_, hch, ?_⟩
            · simp [advance, hget, hnext, hget2, hv, hadv]
            · exact hsuf.trans (List.suffix_cons _ _)


/-- A covering chain has exactly the arena's length. -/
theorem chain_length_of_perm {l : List (Nat × SkipListNode)} {n : Nat}
    (h : (l.map Prod.fst).Perm (List.range n)) : l.length = n := by
  have := h.length_eq
  simpa using this


/-- A covering chain visits pairwise distinct indexes. -/
theorem chain_nodup_of_perm {l : List (Nat × SkipListNode)} {n : Nat}
    (h : (l.map Prod.fst).Perm (List.range n)) : (l.map Prod.fst).Nodup :=
  h.nodup_iff.mpr (List.nodup_range n)


/-- A layer's head is a valid starting point of that layer. -/
theorem startOK_head {arena : List SkipListNode} {hd : Option Nat}
    {c : List (Nat × SkipListNode)} (hc : ChainNodes arena hd c) : StartOK c hd := by
  cases hc with
  | nil => exact Or.inl rfl
  | cons hget htl => exact Or.inr ⟨_, _, rfl, List.mem_cons_self _ _⟩


/-- The `down` of a chain member of the upper layer is a valid starting point of
the lower layer. -/
theorem startOK_down {cU cL : List (Nat × SkipListNode)} {j : Nat} {ndj : SkipListNode}
    (hd : DownsOK cU cL) (hmem : (j, ndj) ∈ cU) : StartOK cL ndj.down := by
  obtain ⟨j2, nd2, hdown, hmem2, _⟩ := hd _ hmem
  exact Or.inr ⟨j2, nd2, hdown, hmem2⟩


/-- On a well-formed layer, the per-layer body of `insert` cannot error: it
reports front insertion, a duplicate, or a found node that lies on the chain. -/
theorem layerFind_spec {arena : List SkipListNode} {hd st : Option Nat}
    {c : List (Nat × SkipListNode)} {v : Int}
    (hc : ChainNodes arena hd c) (hperm : (c.map Prod.fst).Perm (List.range arena.length))
    (hst : StartOK c st) :
    layerFind arena v st = .front ∨ layerFind arena v st = .dup ∨
      ∃ j ndj, layerFind arena v st = .after j ndj.down ∧ (j, ndj) ∈ c := by
  rcases hst with rfl | ⟨i, nd, rfl, hmem⟩
  · left; rfl
  have hget := chainNodes_lookup hc _ hmem
  by_cases h1 : v < nd.value
  · left; simp [layerFind, hget, h1]
  by_cases h2 : v = nd.value
  · right; left; simp [layerFind, hget, h1, h2]
  obtain ⟨pre, suf, hceq, hchain⟩ := chainNodes_suffix_of_mem hc _ hmem
  have hlen : ((i, nd) :: suf).length ≤ arena.length := by
    have hcl : c.length = arena.length := chain_length_of_perm hperm
    rw [hceq] at hcl
    simp at hcl ⊢
    omega
  obtain ⟨j, ndj, suf2, hadv, hch2, hsuf⟩ := advance_chain (v := v) hchain hlen
  have hmem2 : (j, ndj) ∈ c := by
    rw [hceq]
    exact List.mem_append.mpr (Or.inr (hsuf.subset (List.mem_cons_self _ _)))
  have hgetj : arena[j]? = some ndj := by
    cases hch2 with
    | cons hg _ => exact hg
  right; right
  exact ⟨j, ndj, by simp [layerFind, hget, h1, h2, hadv, hgetj], hmem2⟩


/-- On a well-formed layer, the per-layer body of `contains` cannot error. -/
theorem layerContains_spec {arena : List SkipListNode} {hd st : Option Nat}
    {c : List (Nat × SkipListNode)} {v : Int}
    (hc : ChainNodes arena hd c) (hperm : (c.map Prod.fst).Perm (List.range arena.length))
    (hst : StartOK c st) :
    layerContains arena v st = .empty ∨ layerContains arena v st = .found ∨
      ∃ j ndj, layerContains arena v st = .descend ndj.down ∧ (j, ndj) ∈ c := by
  rcases hst with rfl | ⟨i, nd, rfl, hmem⟩
  · left; rfl
  have hget := chainNodes_lookup hc _ hmem
  by_cases h2 : v = nd.value
  · right; left; simp [layerContains, hget, h2]
  obtain ⟨pre, suf, hceq, hchain⟩ := chainNodes_suffix_of_mem hc _ hmem
  have hlen : ((i, nd) :: suf).length ≤ arena.length := by
    have hcl : c.length = arena.length := chain_length_of_perm hperm
    rw [hceq] at hcl
    simp at hcl ⊢
    omega
  obtain ⟨j, ndj, suf2, hadv, hch2, hsuf⟩ := advance_chain (v := v) hchain hlen
  have hmem2 : (j, ndj) ∈ c := by
    rw [hceq]
    exact List.mem_append.mpr (Or.inr (hsuf.subset (List.mem_cons_self _ _)))
  have hgetj : arena[j]? = some ndj := by
    cases hch2 with
    | cons hg _ => exact hg
  right; right
  exact ⟨j, ndj, by simp [layerContains, hget, h2, hadv, hgetj], hmem2⟩


theorem getD_set_self {α : Type} {l : List α} {m : Nat} (x d : α) (h : m < l.length) :
    (l.set m x).getD m d = x := by
  rw [List.getD_eq_getElem?_getD, List.getElem?_set_eq_of_lt x h]
  rfl


theorem getD_set_other {α : Type} {l : List α} {m k : Nat} (x d : α) (h : m ≠ k) :
    (l.set m x).getD k d = l.getD k d := by
  rw [List.getD_eq_getElem?_getD, List.getD_eq_getElem?_getD, List.getElem?_set_ne h]


/-- Phase 1 of `insert` on a well-formed structure: no error; either the
duplicate abort, or an `insert_list` whose processed entries all lie on their
layers' chains and whose later entries are untouched. -/
theorem findLoop_spec {s : SkipList} {L : Nat → List (Nat × SkipListNode)} {v : Int}
    (hv : GoodView s L) (layer : Nat) :
    layer < SKIP_LIST_LAYERS → ∀ st il, il.length = SKIP_LIST_LAYERS →
      StartOK (L layer) st →
      findLoop s v layer st il = some none ∨
      ∃ il2, findLoop s v layer st il = some (some il2) ∧
        il2.length = SKIP_LIST_LAYERS ∧
        (∀ k, k ≤ layer → ILOK L k (il2.getD k none)) ∧
        (∀ k, layer < k → il2.getD k none = il.getD k none) := by
  induction layer with
  | zero =>
    intro h0 st il hlen hst
    obtain ⟨hchain, hperm⟩ := hv.1 0 h0
    rcases layerFind_spec (v := v) hchain hperm hst with hf | hf | ⟨j, ndj, hf, hmem⟩
    · right
      refine ⟨il.set 0 none, by simp [findLoop, hf], by simp [hlen], ?_, ?_⟩
      · intro k hk
        interval_cases k
        left
        exact getD_set_self _ _ (by rw [hlen]; decide)
      · intro k hk
        exact getD_set_other _ _ (by omega)
    · left; simp [findLoop, hf]
    · right
      refine ⟨il.set 0 (some j), by simp [findLoop, hf], by simp [hlen], ?_, ?_⟩
      · intro k hk
        interval_cases k
        exact Or.inr ⟨j, ndj, getD_set_self _ _ (by rw [hlen]; decide), hmem⟩
      · intro k hk
        exact getD_set_other _ _ (by omega)
  | succ l ih =>
    intro h1 st il hlen hst
    obtain ⟨hchain, hperm⟩ := hv.1 (l + 1) h1
    have hl : l < SKIP_LIST_LAYERS := Nat.lt_of_succ_lt h1
    rcases layerFind_spec (v := v) hchain hperm hst with hf | hf | ⟨j, ndj, hf, hmem⟩
    · have hst2 : StartOK (L l) (headOf s l) := startOK_head (hv.1 l hl).1
      rcases ih hl (headOf s l) (il.set (l + 1) none) (by simp [hlen]) hst2 with
        hdup | ⟨il2, heq, hlen2, hok, hrest⟩
      · left; simp [findLoop, hf, hdup]
      · right
        refine ⟨il2, by simp [findLoop, hf, heq], hlen2, ?_, ?_⟩
        · intro k hk
          rcases Nat.lt_or_ge k (l + 1) with hk2 | hk2
          · exact hok k (Nat.lt_succ_iff.mp hk2)
          · have hkeq : k = l + 1 := by omega
            rw [hkeq, hrest (l + 1) (by omega), getD_set_self _ _ (by rw [hlen]; omega)]
            exact Or.inl rfl
        · intro k hk
          rw [hrest k (by omega), getD_set_other _ _ (by omega)]
    · left; simp [findLoop, hf]
    · have hdowns : DownsOK (L (l + 1)) (L l) := by
        have := hv.2.2 (l + 1) (Nat.succ_le_succ (Nat.zero_le l)) h1
        simpa using this
      have hst2 : StartOK (L l) ndj.down := startOK_down hdowns hmem
      rcases ih hl ndj.down (il.set (l + 1) (some j)) (by simp [hlen]) hst2 with
        hdup | ⟨il2, heq, hlen2, hok, hrest⟩
      · left; simp [findLoop, hf, hdup]
      · right
        refine ⟨il2, by simp [findLoop, hf, heq], hlen2, ?_, ?_⟩
        · intro k hk
          rcases Nat.lt_or_ge k (l + 1) with hk2 | hk2
          · exact hok k (Nat.lt_succ_iff.mp hk2)
          · have hkeq : k = l + 1 := by omega
            rw [hkeq, hrest (l + 1) (by omega), getD_set_self _ _ (by rw [hlen]; omega)]
            exact Or.inr ⟨j, ndj, rfl, hmem⟩
        · intro k hk
          rw [hrest k (by omega), getD_set_other _ _ (by omega)]


/-- The per-layer loop of `contains` on a well-formed structure never errors. -/
theorem containsLoop_spec {s : SkipList} {L : Nat → List (Nat × SkipListNode)} {v : Int}
    (hv : GoodView s L) (layer : Nat) :
    layer < SKIP_LIST_LAYERS → ∀ st, StartOK (L layer) st →
      (containsLoop s v layer st).isSome := by
  induction layer with
  | zero =>
    intro h0 st hst
    obtain ⟨hchain, hperm⟩ := hv.1 0 h0
    rcases layerContains_spec (v := v) hchain hperm hst with hf | hf | ⟨j, ndj, hf, hmem⟩ <;>
      simp [containsLoop, hf]
  | succ l ih =>
    intro h1 st hst
    obtain ⟨hchain, hperm⟩ := hv.1 (l + 1) h1
    have hl : l < SKIP_LIST_LAYERS := Nat.lt_of_succ_lt h1
    rcases layerContains_spec (v := v) hchain hperm hst with hf | hf | ⟨j, ndj, hf, hmem⟩
    · simp [containsLoop, hf]
    · simp [containsLoop, hf]
    · have hdowns : DownsOK (L (l + 1)) (L l) := by
        have := hv.2.2 (l + 1) (Nat.succ_le_succ (Nat.zero_le l)) h1
        simpa using this
      have := ih hl ndj.down (startOK_down hdowns hmem)
      simpa [containsLoop, hf] using this


/-- Every member of the pre-splice chain survives (same index, value, down) in
the post-splice chain. -/
theorem mem_splice_after {pre suf : List (Nat × SkipListNode)} {i n : Nat}
    {nd ndRe newNd : SkipListNode} (hval : ndRe.value = nd.value)
    (hdown : ndRe.down = nd.down) :
    ∀ q ∈ pre ++ (i, nd) :: suf, ∃ p ∈ pre ++ (i, ndRe) :: (n, newNd) :: suf,
      p.1 = q.1 ∧ p.2.down = q.2.down ∧ p.2.value = q.2.value := by
  intro q hq
  rcases List.mem_append.mp hq with hq | hq
  · exact ⟨q, List.mem_append.mpr (Or.inl hq), rfl, rfl, rfl⟩
  rcases List.mem_cons.mp hq with rfl | hq
  · exact ⟨(i, ndRe), List.mem_append.mpr (Or.inr (List.mem_cons_self _ _)), rfl, hdown, hval⟩
  · exact ⟨q, List.mem_append.mpr (Or.inr (List.mem_cons_of_mem _ (List.mem_cons_of_mem _ hq))),
      rfl, rfl, rfl⟩


/-- Every member of the post-splice chain is the new node or survives from the
pre-splice chain (same index, value, down). -/
theorem mem_of_splice_after {pre suf : List (Nat × SkipListNode)} {i n : Nat}
    {nd ndRe newNd : SkipListNode} (hval : ndRe.value = nd.value)
    (hdown : ndRe.down = nd.down) :
    ∀ p ∈ pre ++ (i, ndRe) :: (n, newNd) :: suf, p = (n, newNd) ∨
      ∃ q ∈ pre ++ (i, nd) :: suf, q.1 = p.1 ∧ q.2.down = p.2.down ∧ q.2.value = p.2.value := by
  intro p hp
  rcases List.mem_append.mp hp with hp | hp
  · exact Or.inr ⟨p, List.mem_append.mpr (Or.inl hp), rfl, rfl, rfl⟩
  rcases List.mem_cons.mp hp with rfl | hp
  · exact Or.inr ⟨(i, nd), List.mem_append.mpr (Or.inr (List.mem_cons_self _ _)),
      rfl, hdown.symm, hval.symm⟩
  rcases List.mem_cons.mp hp with rfl | hp
  · exact Or.inl rfl
  · exact Or.inr ⟨p, List.mem_append.mpr (Or.inr (List.mem_cons_of_mem _ hp)), rfl, rfl, rfl⟩


/-- Index permutation of the post-splice chain. -/
theorem perm_splice_after {pre suf : List (Nat × SkipListNode)} {i n : Nat}
    {nd ndRe newNd : SkipListNode}
    (hperm : ((pre ++ (i, nd) :: suf).map Prod.fst).Perm (List.range n)) :
    ((pre ++ (i, ndRe) :: (n, newNd) :: suf).map Prod.fst).Perm (List.range (n + 1)) := by
  have hold : (pre ++ (i, nd) :: suf).map Prod.fst =
      pre.map Prod.fst ++ i :: suf.map Prod.fst := by simp
  rw [hold] at hperm
  have e1 : (pre ++ (i, ndRe) :: (n, newNd) :: suf).map Prod.fst =
      (pre.map Prod.fst ++ [i]) ++ n :: suf.map Prod.fst := by simp
  have p1 : ((pre.map Prod.fst ++ [i]) ++ n :: suf.map Prod.fst).Perm
      (n :: (pre.map Prod.fst ++ i :: suf.map Prod.fst)) := by
    have h2 := @List.perm_middle Nat n (pre.map Prod.fst ++ [i]) (suf.map Prod.fst)
    simpa using h2
  have p2 : (n :: (pre.map Prod.fst ++ i :: suf.map Prod.fst)).Perm (List.range (n + 1)) := by
    rw [List.range_succ]
    exact (hperm.cons n).trans (List.perm_append_singleton n _).symm
  rw [e1]
  exact p1.trans p2


/-- Index permutation of the post-head-splice chain. -/
theorem perm_splice_head {c : List (Nat × SkipListNode)} {n : Nat} {newNd : SkipListNode}
    (hperm : (c.map Prod.fst).Perm (List.range n)) :
    (((n, newNd) :: c).map Prod.fst).Perm (List.range (n + 1)) := by
  rw [List.range_succ, List.map_cons]
  exact (hperm.cons n).trans (List.perm_append_singleton n _).symm


/-- Rebuild a good view after one layer `k` was spliced: the new chain `c2`
consists of the new node (holding `v`, `down = li`) plus the survivors of the
old chain, and all other layers are untouched. -/
theorem goodView_upd {s1 : SkipList} {L : Nat → List (Nat × SkipListNode)} {k : Nat}
    {c2 : List (Nat × SkipListNode)} {newNd : SkipListNode} {n : Nat} {li : Option Nat}
    (hchains : ∀ m, m < SKIP_LIST_LAYERS → m ≠ k →
      ChainNodes (layerOf s1 m) (headOf s1 m) (L m) ∧
      ((L m).map Prod.fst).Perm (List.range (layerOf s1 m).length))
    (hchainK : ChainNodes (layerOf s1 k) (headOf s1 k) c2)
    (hpermK : (c2.map Prod.fst).Perm (List.range (layerOf s1 k).length))
    (hfwd : ∀ q ∈ L k, ∃ p ∈ c2, Prod.fst p = Prod.fst q ∧
      (Prod.snd p).down = (Prod.snd q).down ∧ (Prod.snd p).value = (Prod.snd q).value)
    (hbwd : ∀ p ∈ c2, p = (n, newNd) ∨
      ∃ q ∈ L k, Prod.fst q = Prod.fst p ∧
        (Prod.snd q).down = (Prod.snd p).down ∧ (Prod.snd q).value = (Prod.snd p).value)
    (hnewdown : newNd.down = li)
    (hold0 : ∀ p ∈ L 0, (Prod.snd p).down = none)
    (holddowns : ∀ m, 1 ≤ m → m < SKIP_LIST_LAYERS → DownsOK (L m) (L (m - 1)))
    (hli : (k = 0 ∧ li = none) ∨
      (1 ≤ k ∧ ∃ j ndv, li = some j ∧ (j, ndv) ∈ L (k - 1) ∧ ndv.value = newNd.value)) :
    GoodView s1 (updL L k c2) := by
  refine ⟨?_, ?_, ?_⟩
  · intro m hm
    by_cases hmk : m = k
    · subst hmk
      simp only [updL, if_pos rfl]
      exact ⟨hchainK, hpermK⟩
    · simp only [updL, if_neg hmk]
      exact hchains m hm hmk
  · intro p hp
    by_cases h0k : (0 : Nat) = k
    · subst h0k
      simp only [updL, if_pos rfl] at hp
      rcases hbwd p hp with rfl | ⟨q, hqmem, _, hqdown, _⟩
      · rcases hli with ⟨_, hlinone⟩ | ⟨h1, _⟩
        · simpa [hlinone] using hnewdown
        · omega
      · rw [← hqdown]
        exact hold0 q hqmem
    · simp only [updL, if_neg h0k] at hp
      exact hold0 p hp
  · intro m h1 h3
    by_cases hmk : m = k
    · subst hmk
      have hm1 : ¬ (m - 1 = m) := by omega
      simp only [updL, if_pos rfl, if_neg hm1]
      intro p hp
      rcases hbwd p hp with rfl | ⟨q, hqmem, _, hqdown, hqval⟩
      · rcases hli with ⟨hk0, _⟩ | ⟨_, j, ndv, hlij, hmemv, hvalv⟩
        · omega
        · exact ⟨j, ndv, by rw [hnewdown, hlij], hmemv, hvalv⟩
      · obtain ⟨j, nd2, hdq, hmem2, hval2⟩ := holddowns m h1 h3 q hqmem
        exact ⟨j, nd2, by rw [← hqdown]; exact hdq, hmem2, hval2.trans hqval⟩
    · by_cases hm1k : m - 1 = k
      · simp only [updL, if_neg hmk, if_pos hm1k]
        intro p hp
        obtain ⟨j, nd2, hdp, hmem2, hval2⟩ := holddowns m h1 h3 p hp
        rw [hm1k] at hmem2
        obtain ⟨p2, hp2mem, hp21, _, hp2val⟩ := hfwd (j, nd2) hmem2
        obtain ⟨a, b⟩ := p2
        simp only at hp21 hp2val
        rw [hp21] at hp2mem
        exact ⟨j, b, hdp, hp2mem, hp2val.trans hval2⟩
      · simp only [updL, if_neg hmk, if_neg hm1k]
        exact holddowns m h1 h3


/-- One splice iteration (`insert`, lines 160-181) on a well-formed structure
succeeds, appends exactly one node holding `v` to its layer, touches nothing
else, and preserves the good view with the new node on its layer's chain. -/
theorem spliceStep_spec {v : Int} {s : SkipList} {L : Nat → List (Nat × SkipListNode)}
    {il : List (Option Nat)} {li : Option Nat} {k : Nat}
    (hgv : GoodView s L) (hk : k < SKIP_LIST_LAYERS)
    (hlay : s.layers.length = SKIP_LIST_LAYERS) (hhd : s.head.length = SKIP_LIST_LAYERS)
    (hil : ILOK L k (il.getD k none))
    (hli : (k = 0 ∧ li = none) ∨
      (1 ≤ k ∧ ∃ j ndv, li = some j ∧ (j, ndv) ∈ L (k - 1) ∧ ndv.value = v)) :
    ∃ s1 c2 newNd,
      spliceStep v s il li k = some (s1, some (layerOf s k).length) ∧
      (layerOf s1 k).length = (layerOf s k).length + 1 ∧
      (∀ m, m ≠ k → layerOf s1 m = layerOf s m ∧ headOf s1 m = headOf s m) ∧
      s1.layers.length = SKIP_LIST_LAYERS ∧ s1.head.length = SKIP_LIST_LAYERS ∧
      FrameLayer v (layerOf s k) (headOf s k) (layerOf s1 k) (headOf s1 k) ∧
      GoodView s1 (updL L k c2) ∧
      ((layerOf s k).length, newNd) ∈ c2 ∧ newNd.value = v := by
  obtain ⟨hchainK, hpermK⟩ := hgv.1 k hk
  have hklay : k < s.layers.length := by rw [hlay]; exact hk
  have hkhd : k < s.head.length := by rw [hhd]; exact hk
  rcases hil with hnone | ⟨i, nd, hsome, hmem⟩
  · -- front insertion: the new node becomes the layer's head
    refine ⟨{ layers := s.layers.set k (layerOf s k ++ [⟨v, headOf s k, li⟩])
              head := s.head.set k (some (layerOf s k).length) },
      ((layerOf s k).length, (⟨v, headOf s k, li⟩ : SkipListNode)) :: L k,
      ⟨v, headOf s k, li⟩, ?_, ?_, ?_, ?_, ?_, ?_, ?_, ?_, rfl⟩
    · have hnone2 : il[k]?.getD none = none := by
        rw [← List.getD_eq_getElem?_getD]
        exact hnone
      simp [spliceStep, hnone2]
    · show ((s.layers.set k _).getD k []).length = _
      rw [getD_set_self _ _ hklay]
      simp
    · intro m hm
      exact ⟨getD_set_other _ _ fun he => hm he.symm,
        getD_set_other _ _ fun he => hm he.symm⟩
    · simp [hlay]
    · simp [hhd]
    · refine ⟨?_, ⟨⟨v, headOf s k, li⟩, rfl, Or.inl ⟨?_, ?_⟩⟩, ?_⟩
      · show ((s.layers.set k _).getD k []).length = _
        rw [getD_set_self _ _ hklay]
        simp
      · show (s.layers.set k _).getD k [] = _
        exact getD_set_self _ _ hklay
      · show (s.head.set k _).getD k none = _
        exact getD_set_self _ _ hkhd
      · intro jj ndo hjo
        have hjlt : jj < (layerOf s k).length := (List.getElem?_eq_some.mp hjo).1
        refine ⟨ndo, ?_, rfl, rfl⟩
        show ((s.layers.set k _).getD k [])[jj]? = _
        rw [getD_set_self _ _ hklay, List.getElem?_append_left hjlt]
        exact hjo
    · refine @goodView_upd _ _ _ _ (⟨v, headOf s k, li⟩ : SkipListNode)
        (layerOf s k).length li ?_ ?_ ?_ ?_ ?_ rfl hgv.2.1 hgv.2.2 ?_
      · intro m hm hmk
        have h1 : layerOf { layers := s.layers.set k (layerOf s k ++ [(⟨v, headOf s k, li⟩ : SkipListNode)]), head := s.head.set k (some (layerOf s k).length) } m = layerOf s m :=
          getD_set_other _ _ fun he => hmk he.symm
        have h2 : headOf { layers := s.layers.set k (layerOf s k ++ [(⟨v, headOf s k, li⟩ : SkipListNode)]), head := s.head.set k (some (layerOf s k).length) } m = headOf s m :=
          getD_set_other _ _ fun he => hmk he.symm
        rw [h1, h2]
        exact hgv.1 m hm
      · have h1 : layerOf { layers := s.layers.set k (layerOf s k ++ [(⟨v, headOf s k, li⟩ : SkipListNode)]), head := s.head.set k (some (layerOf s k).length) } k = layerOf s k ++ [⟨v, headOf s k, li⟩] :=
          getD_set_self _ _ hklay
        have h2 : headOf { layers := s.layers.set k (layerOf s k ++ [(⟨v, headOf s k, li⟩ : SkipListNode)]), head := s.head.set k (some (layerOf s k).length) } k = some (layerOf s k).length :=
          getD_set_self _ _ hkhd
        rw [h1, h2]
        exact chainNodes_splice_head v li hchainK
      · have h1 : layerOf { layers := s.layers.set k (layerOf s k ++ [(⟨v, headOf s k, li⟩ : SkipListNode)]), head := s.head.set k (some (layerOf s k).length) } k = layerOf s k ++ [⟨v, headOf s k, li⟩] :=
          getD_set_self _ _ hklay
        rw [h1]
        simpa using @perm_splice_head _ _ (⟨v, headOf s k, li⟩ : SkipListNode) hpermK
      · intro q hq
        exact ⟨q, List.mem_cons_of_mem _ hq, rfl, rfl, rfl⟩
      · intro p hp
        rcases List.mem_cons.mp hp with rfl | hp
        · exact Or.inl rfl
        · exact Or.inr ⟨p, hp, rfl, rfl, rfl⟩
      · simpa using hli
    · exact List.mem_cons_self _ _
  · -- found case: splice right after the recorded node
    have hgeti : (layerOf s k)[i]? = some nd := chainNodes_lookup hchainK _ hmem
    obtain ⟨pre, suf, hdecomp, _⟩ := chainNodes_suffix_of_mem hchainK _ hmem
    have hnodup : ((L k).map Prod.fst).Nodup := chain_nodup_of_perm hpermK
    have hsome2 : il[k]?.getD none = some i := by
      rw [← List.getD_eq_getElem?_getD]
      exact hsome
    have hilt : i < (layerOf s k).length := (List.getElem?_eq_some.mp hgeti).1
    have hchainKd : ChainNodes (layerOf s k) (headOf s k) (pre ++ (i, nd) :: suf) :=
      hdecomp ▸ hchainK
    have hnodupd : ((pre ++ (i, nd) :: suf).map Prod.fst).Nodup := hdecomp ▸ hnodup
    refine ⟨{ s with layers := s.layers.set k (((layerOf s k) ++
          [(⟨v, nd.next, li⟩ : SkipListNode)]).set i
          { nd with next := some (layerOf s k).length }) },
      pre ++ (i, { nd with next := some (layerOf s k).length }) ::
        ((layerOf s k).length, (⟨v, nd.next, li⟩ : SkipListNode)) :: suf,
      ⟨v, nd.next, li⟩, ?_, ?_, ?_, ?_, ?_, ?_, ?_, ?_, rfl⟩
    · simp [spliceStep, hsome2, hgeti]
    · show ((s.layers.set k _).getD k []).length = _
      rw [getD_set_self _ _ hklay]
      simp
    · intro m hm
      exact ⟨getD_set_other _ _ fun he => hm he.symm, rfl⟩
    · simp [hlay]
    · exact hhd
    · refine ⟨?_, ⟨⟨v, nd.next, li⟩, rfl, Or.inr ⟨i, nd, hgeti, ?_, rfl⟩⟩, ?_⟩
      · show ((s.layers.set k _).getD k []).length = _
        rw [getD_set_self _ _ hklay]
        simp
      · show (s.layers.set k _).getD k [] = _
        exact getD_set_self _ _ hklay
      · intro jj ndo hjo
        by_cases hji : jj = i
        · subst hji
          have hndo : ndo = nd := by
            rw [hgeti] at hjo
            exact (Option.some.inj hjo).symm
          refine ⟨{ nd with next := some (layerOf s k).length }, ?_, ?_, ?_⟩
          · show ((s.layers.set k _).getD k [])[jj]? = _
            rw [getD_set_self _ _ hklay]
            exact List.getElem?_set_eq_of_lt _ (by simp; omega)
          · rw [hndo]
          · rw [hndo]
        · have hjlt : jj < (layerOf s k).length := (List.getElem?_eq_some.mp hjo).1
          refine ⟨ndo, ?_, rfl, rfl⟩
          show ((s.layers.set k _).getD k [])[jj]? = _
          rw [getD_set_self _ _ hklay, List.getElem?_set_ne fun he => hji he.symm,
            List.getElem?_append_left hjlt]
          exact hjo
    · refine @goodView_upd _ _ _ _ (⟨v, nd.next, li⟩ : SkipListNode)
        (layerOf s k).length li ?_ ?_ ?_ ?_ ?_ rfl hgv.2.1 hgv.2.2 ?_
      · intro m hm hmk
        have h1 : layerOf { s with layers := s.layers.set k (((layerOf s k) ++
            [(⟨v, nd.next, li⟩ : SkipListNode)]).set i
            { nd with next := some (layerOf s k).length }) } m = layerOf s m :=
          getD_set_other _ _ fun he => hmk he.symm
        rw [h1]
        exact hgv.1 m hm
      · have h1 : layerOf { s with layers := s.layers.set k (((layerOf s k) ++
            [(⟨v, nd.next, li⟩ : SkipListNode)]).set i
            { nd with next := some (layerOf s k).length }) } k =
            ((layerOf s k) ++ [(⟨v, nd.next, li⟩ : SkipListNode)]).set i
              { nd with next := some (layerOf s k).length } :=
          getD_set_self _ _ hklay
        rw [h1]
        exact chainNodes_splice_after v li hchainKd hnodupd
      · have h1 : layerOf { s with layers := s.layers.set k (((layerOf s k) ++
            [(⟨v, nd.next, li⟩ : SkipListNode)]).set i
            { nd with next := some (layerOf s k).length }) } k =
            ((layerOf s k) ++ [(⟨v, nd.next, li⟩ : SkipListNode)]).set i
              { nd with next := some (layerOf s k).length } :=
          getD_set_self _ _ hklay
        rw [h1]
        have hpermKd : ((pre ++ (i, nd) :: suf).map Prod.fst).Perm
            (List.range (layerOf s k).length) := hdecomp ▸ hpermK
        simpa using @perm_splice_after _ _ _ _ _
          { nd with next := some (layerOf s k).length }
          (⟨v, nd.next, li⟩ : SkipListNode) hpermKd
      · rw [hdecomp]
        exact mem_splice_after rfl rfl
      · rw [hdecomp]
        exact mem_of_splice_after rfl rfl
      · simpa using hli
    · exact List.mem_append.mpr (Or.inr (List.mem_cons_of_mem _ (List.mem_cons_self _ _)))


/-- The splice loop of `insert` on a well-formed structure: succeeds, grows each
processed layer by exactly one node as described by `FrameLayer`, leaves the
other layers untouched, and preserves the good view. -/
theorem spliceLoop_spec {v : Int} : ∀ (rem layer : Nat) (s : SkipList)
    (L : Nat → List (Nat × SkipListNode)) (il : List (Option Nat)) (li : Option Nat),
    GoodView s L → layer + rem ≤ SKIP_LIST_LAYERS →
    s.layers.length = SKIP_LIST_LAYERS → s.head.length = SKIP_LIST_LAYERS →
    (∀ k, layer ≤ k → k < layer + rem → ILOK L k (il.getD k none)) →
    ((layer = 0 ∧ li = none) ∨
      (1 ≤ layer ∧ ∃ j ndv, li = some j ∧ (j, ndv) ∈ L (layer - 1) ∧ ndv.value = v)) →
    ∃ s2 L2, spliceLoop v s il li layer rem = some s2 ∧ GoodView s2 L2 ∧
      s2.layers.length = SKIP_LIST_LAYERS ∧ s2.head.length = SKIP_LIST_LAYERS ∧
      (∀ k, layer ≤ k → k < layer + rem →
        (layerOf s2 k).length = (layerOf s k).length + 1 ∧
        FrameLayer v (layerOf s k) (headOf s k) (layerOf s2 k) (headOf s2 k)) ∧
      (∀ k, k < layer ∨ layer + rem ≤ k →
        layerOf s2 k = layerOf s k ∧ headOf s2 k = headOf s k) := by
  intro rem
  induction rem with
  | zero =>
    intro layer s L il li hgv _ hlay hhd _ _
    exact ⟨s, L, rfl, hgv, hlay, hhd, fun k h1 h2 => by omega,
      fun k _ => ⟨rfl, rfl⟩⟩
  | succ rem ih =>
    intro layer s L il li hgv hrem hlay hhd hil hli
    have hklt : layer < SKIP_LIST_LAYERS := by omega
    obtain ⟨s1, c2, newNd, hstep, hlen1, hsame1, hlay1, hhd1, hframe1, hgv1, hmem1, hval1⟩ :=
      spliceStep_spec hgv hklt hlay hhd (hil layer (Nat.le_refl layer) (by omega)) hli
    have hil2 : ∀ k, layer + 1 ≤ k → k < layer + 1 + rem →
        ILOK (updL L layer c2) k (il.getD k none) := by
      intro k h1 h2
      have h := hil k (by omega) (by omega)
      simp only [ILOK] at h ⊢
      rwa [show updL L layer c2 k = L k from by
        simp only [updL, if_neg (by omega : ¬ k = layer)]]
    have hli2 : (layer + 1 = 0 ∧ some (layerOf s layer).length = none) ∨
        (1 ≤ layer + 1 ∧ ∃ j ndv, some (layerOf s layer).length = some j ∧
          (j, ndv) ∈ updL L layer c2 (layer + 1 - 1) ∧ ndv.value = v) := by
      right
      refine ⟨by omega, (layerOf s layer).length, newNd, rfl, ?_, hval1⟩
      simp only [Nat.add_sub_cancel, updL, if_pos rfl]
      exact hmem1
    obtain ⟨s2, L2, hloop, hgv2, hlay2, hhd2, hframes2, hunch2⟩ :=
      ih (layer + 1) s1 (updL L layer c2) il (some (layerOf s layer).length)
        hgv1 (by omega) hlay1 hhd1 hil2 hli2
    refine ⟨s2, L2, ?_, hgv2, hlay2, hhd2, ?_, ?_⟩
    · show (match spliceStep v s il li layer with
        | none => none
        | some (s1, li2) => spliceLoop v s1 il li2 (layer + 1) rem) = some s2
      rw [hstep]
      exact hloop
    · intro k h1 h2
      by_cases hkl : k = layer
      · subst hkl
        have hu := hunch2 k (Or.inl (by omega))
        rw [hu.1, hu.2]
        exact ⟨hlen1, hframe1⟩
      · have hf := hframes2 k (by omega) (by omega)
        have hs := hsame1 k hkl
        rw [hs.1, hs.2] at hf
        exact hf
    · intro k hk
      have hu := hunch2 k (by omega)
      have hne : k ≠ layer := by omega
      have hs := hsame1 k hne
      exact ⟨hu.1.trans hs.1, hu.2.trans hs.2⟩


/-- Running `insert` on a well-formed structure: it succeeds, preserves the invariant,
and either mutates nothing (duplicate abort) or splices one node per layer into
the first `num_insert_layers` layers and touches nothing else. -/
theorem insert_spec {s : SkipList} (hinv : SkipInv s) (v : Int) (r : Fin SKIP_LIST_LAYERS) :
    ∃ s2, s.insert v r = some s2 ∧ SkipInv s2 ∧
      (s2 = s ∨
        (1 ≤ (if (headOf s 0).isNone then SKIP_LIST_LAYERS else 1 + r.val) ∧
          (if (headOf s 0).isNone then SKIP_LIST_LAYERS else 1 + r.val) ≤ SKIP_LIST_LAYERS ∧
          (∀ k, k < (if (headOf s 0).isNone then SKIP_LIST_LAYERS else 1 + r.val) →
            FrameLayer v (layerOf s k) (headOf s k) (layerOf s2 k) (headOf s2 k)) ∧
          (∀ k, (if (headOf s 0).isNone then SKIP_LIST_LAYERS else 1 + r.val) ≤ k →
            layerOf s2 k = layerOf s k ∧ headOf s2 k = headOf s k))) := by
  obtain ⟨hlay, hhd, hsizes, L, hgv⟩ := hinv
  have hstart : StartOK (L (SKIP_LIST_LAYERS - 1)) (headOf s (SKIP_LIST_LAYERS - 1)) :=
    startOK_head (hgv.1 (SKIP_LIST_LAYERS - 1) (by decide)).1
  rcases findLoop_spec (v := v) hgv (SKIP_LIST_LAYERS - 1) (by decide)
      (headOf s (SKIP_LIST_LAYERS - 1)) (List.replicate SKIP_LIST_LAYERS none)
      (by simp) hstart with hdup | ⟨il2, hfind, hlen2, hok, _⟩
  · refine ⟨s, ?_, ⟨hlay, hhd, hsizes, L, hgv⟩, Or.inl rfl⟩
    simp only [SkipList.insert]
    rw [hdup]
  · have hnum : 1 ≤ (if (headOf s 0).isNone then SKIP_LIST_LAYERS else 1 + r.val) ∧
        (if (headOf s 0).isNone then SKIP_LIST_LAYERS else 1 + r.val) ≤ SKIP_LIST_LAYERS := by
      have hr := r.isLt
      by_cases h0 : (headOf s 0).isNone <;> simp [h0] <;> omega
    obtain ⟨s2, L2, hloop, hgv2, hlay2, hhd2, hframes, hunch⟩ :=
      spliceLoop_spec (v := v) (if (headOf s 0).isNone then SKIP_LIST_LAYERS else 1 + r.val) 0 s L
        il2 none hgv (by omega) hlay hhd
        (fun k _ hk => hok k (by
          have := hnum.2
          omega)) (Or.inl ⟨rfl, rfl⟩)
    have hsizes2 : ∀ k, 1 ≤ k → k < SKIP_LIST_LAYERS →
        (layerOf s2 k).length ≤ (layerOf s2 (k - 1)).length := by
      intro k h1 h3
      by_cases hk : k < (if (headOf s 0).isNone then SKIP_LIST_LAYERS else 1 + r.val)
      · rw [(hframes k (by omega) (by omega)).1, (hframes (k - 1) (by omega) (by omega)).1]
        exact Nat.succ_le_succ (hsizes k h1 h3)
      · rw [(hunch k (by omega)).1]
        by_cases hk1 : k - 1 < (if (headOf s 0).isNone then SKIP_LIST_LAYERS else 1 + r.val)
        · rw [(hframes (k - 1) (by omega) (by omega)).1]
          exact Nat.le_succ_of_le (hsizes k h1 h3)
        · rw [(hunch (k - 1) (by omega)).1]
          exact hsizes k h1 h3
    refine ⟨s2, ?_, ⟨hlay2, hhd2, hsizes2, L2, hgv2⟩, Or.inr ⟨hnum.1, hnum.2, ?_, ?_⟩⟩
    · simp only [SkipList.insert]
      rw [hfind]
      exact hloop
    · intro k hk
      exact (hframes k (by omega) (by omega)).2
    · intro k hk
      exact hunch k (by omega)


/-- The freshly constructed structure satisfies the invariant. -/
theorem skipInv_default : SkipInv SkipList.default := by
  have hlayer : ∀ k, layerOf SkipList.default k = [] := by
    intro k
    show (List.replicate SKIP_LIST_LAYERS ([] : List SkipListNode)).getD k [] = []
    rw [List.getD_eq_getElem?_getD, List.getElem?_replicate]
    split <;> rfl
  have hhead : ∀ k, headOf SkipList.default k = none := by
    intro k
    show (List.replicate SKIP_LIST_LAYERS (none : Option Nat)).getD k none = none
    rw [List.getD_eq_getElem?_getD, List.getElem?_replicate]
    split <;> rfl
  refine ⟨by simp [SkipList.default], by simp [SkipList.default], ?_, fun _ => [], ?_, ?_, ?_⟩
  · intro k _ _
    rw [hlayer k, hlayer (k - 1)]
  · intro k _
    rw [hlayer k, hhead k]
    exact ⟨ChainNodes.nil, by simp⟩
  · intro p hp
    cases hp
  · intro k _ _ p hp
    cases hp


/-- Folding the insert steps from `none` stays `none`. -/
theorem run_none (ops : List (Int × Fin SKIP_LIST_LAYERS)) :
    ops.foldl (fun (a : Option SkipList) (p : Int × Fin SKIP_LIST_LAYERS) => a.bind (fun u => u.insert p.1 p.2)) none = none := by
  induction ops with
  | nil => rfl
  | cons op ops ih => simpa using ih


/-- Any state produced by a run of inserts from an invariant-satisfying
accumulator satisfies the invariant. -/
theorem run_inv_aux : ∀ (ops : List (Int × Fin SKIP_LIST_LAYERS)) (acc : Option SkipList),
    (∀ t, acc = some t → SkipInv t) →
    ∀ s, ops.foldl (fun (a : Option SkipList) (p : Int × Fin SKIP_LIST_LAYERS) => a.bind (fun u => u.insert p.1 p.2)) acc = some s →
      SkipInv s := by
  intro ops
  induction ops with
  | nil =>
    intro acc hacc s hs
    exact hacc s hs
  | cons op ops ih =>
    intro acc hacc s hs
    simp only [List.foldl_cons] at hs
    refine ih _ ?_ s hs
    intro t ht
    rcases acc with _ | u
    · rw [Option.none_bind] at ht
      cases ht
    · rw [Option.some_bind] at ht
      obtain ⟨s2, hins, hinv2, _⟩ := insert_spec (hacc u rfl) op.1 op.2
      rw [hins] at ht
      cases ht
      exact hinv2


/-- Every reachable state satisfies the master invariant. -/
theorem reachable_skipInv {s : SkipList} (h : Reachable s) : SkipInv s := by
  obtain ⟨ops, hrun⟩ := h
  exact run_inv_aux ops (some SkipList.default)
    (fun t ht => by cases ht; exact skipInv_default) s hrun


/-- Running `contains` never errors on a well-formed structure (all walks finish within
the per-layer fuel and all arena lookups are in range). -/
theorem contains_spec {s : SkipList} (hinv : SkipInv s) (v : Int) :
    (s.contains v).isSome := by
  obtain ⟨_, _, _, L, hgv⟩ := hinv
  exact containsLoop_spec hgv (SKIP_LIST_LAYERS - 1) (by decide) _
    (startOK_head (hgv.1 _ (by decide)).1)


/-- The `fmt` base traversal computes the chain's value sequence when given
enough fuel. -/
theorem chainVals_of_chain {arena : List SkipListNode} {st : Option Nat}
    {l : List (Nat × SkipListNode)} (h : ChainNodes arena st l) :
    ∀ fuel, l.length ≤ fuel →
      chainVals arena st fuel = some (l.map (fun p => (Prod.snd p).value)) := by
  induction h with
  | nil =>
    intro fuel _
    cases fuel <;> rfl
  | @cons i nd l2 hget htl ih =>
    intro fuel hfuel
    cases fuel with
    | zero => simp at hfuel
    | succ f =>
      have := ih f (by simpa using hfuel)
      simp [chainVals, hget, this]


/-- The per-layer lock-step walk of `fmt` computes `lineOfVals` of the base
values and the layer chain's value sequence. -/
theorem layerLine_of_chain {arena : List SkipListNode} :
    ∀ (bl : List Int) (st : Option Nat) (l : List (Nat × SkipListNode)),
      ChainNodes arena st l →
      layerLine arena bl st = some (lineOfVals bl (l.map (fun p => (Prod.snd p).value))) := by
  intro bl
  induction bl with
  | nil =>
    intro st l _
    rfl
  | cons b bs ih =>
    intro st l h
    cases h with
    | nil => simp [layerLine, lineOfVals, ih none [] ChainNodes.nil]
    | @cons i nd l2 hget htl =>
      by_cases hb : b = nd.value
      · simp [layerLine, hget, hb, lineOfVals, ih nd.next l2 htl]
      · simp [layerLine, hget, hb, lineOfVals, ih (some i) ((i, nd) :: l2) (ChainNodes.cons hget htl)]


/-- The `next` links of chain members are in range. -/
theorem chainNodes_next_valid {arena : List SkipListNode} {st : Option Nat}
    {l : List (Nat × SkipListNode)} (h : ChainNodes arena st l) :
    ∀ p ∈ l, ∀ m, (Prod.snd p).next = some m → m < arena.length := by
  induction h with
  | nil =>
    intro p hp
    cases hp
  | @cons i nd l2 hget htl ih =>
    intro p hp m hm
    rcases List.mem_cons.mp hp with rfl | hp
    · rw [hm] at htl
      cases htl with
      | cons hget2 _ => exact (List.getElem?_eq_some.mp hget2).1
    · exact ih p hp m hm

/-- Every arena slot is on the covering chain. -/
theorem mem_chain_of_mem_arena {arena : List SkipListNode} {hd : Option Nat}
    {l : List (Nat × SkipListNode)} (h : ChainNodes arena hd l)
    (hperm : (l.map Prod.fst).Perm (List.range arena.length)) :
    ∀ nd ∈ arena, ∃ j, (j, nd) ∈ l := by
  intro nd hnd
  obtain ⟨j, hj⟩ := List.getElem?_of_mem hnd
  have hjlen : j < arena.length := (List.getElem?_eq_some.mp hj).1
  have hjmem : j ∈ l.map Prod.fst := hperm.mem_iff.mpr (List.mem_range.mpr hjlen)
  obtain ⟨p, hpmem, hp1⟩ := List.mem_map.mp hjmem
  have hlook := chainNodes_lookup h p hpmem
  rw [hp1, hj] at hlook
  obtain ⟨a, b⟩ := p
  simp only at hp1
  subst hp1
  cases hlook
  exact ⟨a, hpmem⟩


/-- A chain's start index is in range. -/
theorem chainNodes_head_valid {arena : List SkipListNode} {hd : Option Nat}
    {l : List (Nat × SkipListNode)} (h : ChainNodes arena hd l) :
    ∀ i, hd = some i → i < arena.length := by
  cases h with
  | nil =>
    intro i hi
    cases hi
  | cons hget _ =>
    intro i hi
    cases hi
    exact (List.getElem?_eq_some.mp hget).1


/-- The master invariant yields validity of every stored handle. -/
theorem handleInv_of_skipInv {s : SkipList} (hinv : SkipInv s) : HandleInv s := by
  obtain ⟨_, _, _, L, hgv⟩ := hinv
  refine ⟨?_, ?_, ?_⟩
  · intro k hk i hi
    obtain ⟨hchain, hperm⟩ := hgv.1 k hk
    exact chainNodes_head_valid hchain i hi
  · intro k hk nd hnd m hm
    obtain ⟨hchain, hperm⟩ := hgv.1 k hk
    obtain ⟨j, hj⟩ := mem_chain_of_mem_arena hchain hperm nd hnd
    exact chainNodes_next_valid hchain (j, nd) hj m hm
  · intro k h1 hk nd hnd m hm
    obtain ⟨hchain, hperm⟩ := hgv.1 k hk
    obtain ⟨hchainL, hpermL⟩ := hgv.1 (k - 1) (by omega)
    obtain ⟨j, hj⟩ := mem_chain_of_mem_arena hchain hperm nd hnd
    obtain ⟨j2, nd2, hdown, hmem2, _⟩ := hgv.2.2 k h1 hk (j, nd) hj
    have hm2 : m = j2 := by
      simp only at hdown
      rw [hm] at hdown
      exact Option.some.inj hdown
    rw [hm2]
    exact (List.getElem?_eq_some.mp (chainNodes_lookup hchainL _ hmem2)).1


/-- Helper step for `renderLines`. -/
theorem renderLines_succ {s : SkipList} {bl : List Int} {rem : Nat}
    {line : List (Option Int)} {rest : List (List (Option Int))}
    (h1 : layerLine (layerOf s (rem + 1)) bl (headOf s (rem + 1)) = some line)
    (h2 : renderLines s bl rem = some rest) :
    renderLines s bl (rem + 1) = some (line :: rest) := by
  simp [renderLines, h1, h2]


/-- Running `fmt` on a well-formed structure succeeds and is exactly the pure projection
of the three layers' traversal value sequences. -/
theorem render_spec {s : SkipList} (hinv : SkipInv s) :
    ∃ bl v1 v2,
      chainVals (layerOf s 0) (headOf s 0) (layerOf s 0).length = some bl ∧
      chainVals (layerOf s 1) (headOf s 1) (layerOf s 1).length = some v1 ∧
      chainVals (layerOf s 2) (headOf s 2) (layerOf s 2).length = some v2 ∧
      s.render = some ([lineOfVals bl v2, lineOfVals bl v1], bl) := by
  obtain ⟨_, _, _, L, hgv⟩ := hinv
  obtain ⟨hc0, hp0⟩ := hgv.1 0 (by decide)
  obtain ⟨hc1, hp1⟩ := hgv.1 1 (by decide)
  obtain ⟨hc2, hp2⟩ := hgv.1 2 (by decide)
  have hv0 := chainVals_of_chain hc0 (layerOf s 0).length (le_of_eq (chain_length_of_perm hp0))
  have hv1 := chainVals_of_chain hc1 (layerOf s 1).length (le_of_eq (chain_length_of_perm hp1))
  have hv2 := chainVals_of_chain hc2 (layerOf s 2).length (le_of_eq (chain_length_of_perm hp2))
  have hline2 := layerLine_of_chain
    ((L 0).map fun (p : Nat × SkipListNode) => (Prod.snd p).value) (headOf s 2) (L 2) hc2
  have hline1 := layerLine_of_chain
    ((L 0).map fun (p : Nat × SkipListNode) => (Prod.snd p).value) (headOf s 1) (L 1) hc1
  have hrl : renderLines s ((L 0).map fun (p : Nat × SkipListNode) => (Prod.snd p).value)
      (SKIP_LIST_LAYERS - 1) =
      some [lineOfVals ((L 0).map fun (p : Nat × SkipListNode) => (Prod.snd p).value)
          ((L 2).map fun (p : Nat × SkipListNode) => (Prod.snd p).value),
        lineOfVals ((L 0).map fun (p : Nat × SkipListNode) => (Prod.snd p).value)
          ((L 1).map fun (p : Nat × SkipListNode) => (Prod.snd p).value)] :=
    renderLines_succ hline2 (renderLines_succ hline1 rfl)
  refine ⟨_, _, _, hv0, hv1, hv2, ?_⟩
  show (match chainVals (layerOf s 0) (headOf s 0) (layerOf s 0).length with
    | none => none
    | some baseList =>
      match renderLines s baseList (SKIP_LIST_LAYERS - 1) with
      | none => none
      | some lines => some (lines, baseList)) = _
  rw [hv0]
  show (match renderLines s ((L 0).map fun (p : Nat × SkipListNode) => (Prod.snd p).value)
      (SKIP_LIST_LAYERS - 1) with
    | none => none
    | some lines =>
      some (lines, (L 0).map fun (p : Nat × SkipListNode) => (Prod.snd p).value)) = _
  rw [hrl]


/-- C1: counterexample evaluation.  After inserting 5 (first insert, promoted
into all layers) and then 2 with random draw 0 (base layer only), the value 2
sits on the base-layer chain, yet `contains 2` returns false: the claimed
equivalence between membership and a prior insert fails on the code. -/
theorem contains_misses_inserted_value :
    ((run [(5, draw0), (2, draw0)]).map
      (fun s => chainVals (layerOf s 0) (headOf s 0) (layerOf s 0).length)) =
      some (some [2, 5]) ∧
    (run [(5, draw0), (2, draw0)]).bind (fun s => s.contains 2) = some false ∧
    (2 : Int) ∈ ([(5, draw0), (2, draw0)].map Prod.fst : List Int) := by
  decide


/-- C2: counterexample evaluation.  After inserting 1 and then 2 (draw 0), the
value 2 is present on the base layer; inserting 2 again (draw 0) is not a no-op:
it appends a second node holding 2, so the base traversal becomes [1, 2, 2] and
the structure changes.  The duplicate is met while advancing along `next` at the
base layer, where no equality check is performed. -/
theorem insert_of_present_value_mutates :
    ((run [(1, draw0), (2, draw0)]).map
      (fun s => chainVals (layerOf s 0) (headOf s 0) (layerOf s 0).length)) =
      some (some [1, 2]) ∧
    ((run [(1, draw0), (2, draw0), (2, draw0)]).map
      (fun s => chainVals (layerOf s 0) (headOf s 0) (layerOf s 0).length)) =
      some (some [1, 2, 2]) ∧
    run [(1, draw0), (2, draw0), (2, draw0)] ≠ run [(1, draw0), (2, draw0)] := by
  decide


/-- C3: counterexample evaluation.  After the insert sequence 1, 2, 2 (draws 0)
the base-layer traversal is [1, 2, 2]: sorted, but not strictly increasing — the
duplicate insert that slips through phase 1 lands a second copy of 2 on the base
layer. -/
theorem base_traversal_not_strictly_increasing :
    ((run [(1, draw0), (2, draw0), (2, draw0)]).map
      (fun s => chainVals (layerOf s 0) (headOf s 0) (layerOf s 0).length)) =
      some (some [1, 2, 2]) ∧
    ¬ List.Pairwise (fun a b => a < b) ([1, 2, 2] : List Int) := by
  decide


/-- C4: in every reachable state, base-layer chain nodes have `down = none`, and
every chain node of layer `k > 0` has a `down` handle resolving to a node on the
chain of layer `k-1` holding an equal value. -/
theorem reachable_down_links (s : SkipList) (hs : Reachable s) : DownLinksOK s := by
  obtain ⟨_, _, _, L, hgv⟩ := reachable_skipInv hs
  constructor
  · intro l0 hl0 p hp
    rw [chainNodes_det hl0 (hgv.1 0 (by decide)).1] at hp
    exact hgv.2.1 p hp
  · intro k h1 hk lu ll hlu hll p hp
    rw [chainNodes_det hlu (hgv.1 k hk).1] at hp
    rw [chainNodes_det hll (hgv.1 (k - 1) (by omega)).1]
    exact hgv.2.2 k h1 hk p hp


/-- Witness for C4 at the concrete reachable state `sTwo`. -/
theorem reachable_down_links_witness : Reachable sTwo ∧ DownLinksOK sTwo :=
  ⟨⟨[(5, draw0), (2, draw1)], by decide⟩,
    reachable_down_links sTwo ⟨[(5, draw0), (2, draw1)], by decide⟩⟩


/-- C5: the very first insert into the empty structure populates every layer:
all heads are set, and following the `down` chain from each layer's head reaches
a base-layer node holding the inserted value (with no further `down`). -/
theorem first_insert_populates_all_layers (v : Int) (r : Fin SKIP_LIST_LAYERS) :
    ∃ s2, SkipList.default.insert v r = some s2 ∧
      (∀ k, k < SKIP_LIST_LAYERS → (headOf s2 k).isSome) ∧
      (∀ k, k < SKIP_LIST_LAYERS → ∃ nd, headDownChain s2 k = some nd ∧
        nd.value = v ∧ nd.down = none) := by
  refine ⟨{ layers := [[⟨v, none, none⟩], [⟨v, none, some 0⟩], [⟨v, none, some 0⟩]],
            head := [some 0, some 0, some 0] }, rfl, ?_, ?_⟩
  · intro k hk
    have hk3 : k < 3 := hk
    interval_cases k <;> rfl
  · intro k hk
    have hk3 : k < 3 := hk
    interval_cases k <;> exact ⟨⟨v, none, none⟩, rfl, rfl, rfl⟩


/-- C6: on every reachable state, `insert` and `contains` run to completion: the
outer loops are three (= `SKIP_LIST_LAYERS`) iterations by construction, and the
inner `next` walks complete within fuel equal to the layer's current length
(layer chains are duplicate-free and no longer than their arena). -/
theorem reachable_operations_terminate (s : SkipList) (hs : Reachable s) :
    (∀ (v : Int) (r : Fin SKIP_LIST_LAYERS), (s.insert v r).isSome) ∧
    (∀ v : Int, (s.contains v).isSome) ∧
    (∀ k, k < SKIP_LIST_LAYERS → ∀ l, ChainNodes (layerOf s k) (headOf s k) l →
      (l.map Prod.fst).Nodup ∧ l.length = (layerOf s k).length) := by
  have hinv := reachable_skipInv hs
  refine ⟨?_, fun v => contains_spec hinv v, ?_⟩
  · intro v r
    obtain ⟨s2, heq, _⟩ := insert_spec hinv v r
    simp [heq]
  · intro k hk l hl
    obtain ⟨_, _, _, L, hgv⟩ := hinv
    obtain ⟨hc, hp⟩ := hgv.1 k hk
    rw [chainNodes_det hl hc]
    exact ⟨chain_nodup_of_perm hp, chain_length_of_perm hp⟩


/-- Witness for C6 at the concrete reachable state `sTwo`. -/
theorem reachable_operations_terminate_witness :
    Reachable sTwo ∧
      ((∀ (v : Int) (r : Fin SKIP_LIST_LAYERS), (sTwo.insert v r).isSome) ∧
      (∀ v : Int, (sTwo.contains v).isSome) ∧
      (∀ k, k < SKIP_LIST_LAYERS → ∀ l, ChainNodes (layerOf sTwo k) (headOf sTwo k) l →
        (l.map Prod.fst).Nodup ∧ l.length = (layerOf sTwo k).length)) :=
  ⟨⟨[(5, draw0), (2, draw1)], by decide⟩,
    reachable_operations_terminate sTwo ⟨[(5, draw0), (2, draw1)], by decide⟩⟩


/-- C7: in every reachable state every stored handle (head, `next`, `down`) is a
valid arena index, and `insert`, `contains` and the display traversal all run
without any out-of-range access (the embedded panic branch `none` is never
taken). -/
theorem reachable_handles_valid (s : SkipList) (hs : Reachable s) :
    HandleInv s ∧ (∀ (v : Int) (r : Fin SKIP_LIST_LAYERS), (s.insert v r).isSome) ∧
    (∀ v : Int, (s.contains v).isSome) ∧ (s.render).isSome := by
  have hinv := reachable_skipInv hs
  refine ⟨handleInv_of_skipInv hinv, ?_, fun v => contains_spec hinv v, ?_⟩
  · intro v r
    obtain ⟨s2, heq, _⟩ := insert_spec hinv v r
    simp [heq]
  · obtain ⟨bl, v1, v2, _, _, _, hr⟩ := render_spec hinv
    simp [hr]


/-- Witness for C7 at the concrete reachable state `sTwo`. -/
theorem reachable_handles_valid_witness :
    Reachable sTwo ∧
      (HandleInv sTwo ∧ (∀ (v : Int) (r : Fin SKIP_LIST_LAYERS), (sTwo.insert v r).isSome) ∧
      (∀ v : Int, (sTwo.contains v).isSome) ∧ (sTwo.render).isSome) :=
  ⟨⟨[(5, draw0), (2, draw1)], by decide⟩,
    reachable_handles_valid sTwo ⟨[(5, draw0), (2, draw1)], by decide⟩⟩


/-- C8: on every reachable state, each `insert` call either leaves the structure
completely unchanged or appends exactly one node holding `v` to each of the
first `num_insert_layers` layers (1 to `SKIP_LIST_LAYERS` of them, all of them
when the structure was empty), per touched layer rewriting either the `next` of
exactly one pre-existing node or that layer's head, never changing any existing
node's value or `down`, and leaving all layers at or above the promoted count
untouched. -/
theorem insert_frame_condition (s : SkipList) (hs : Reachable s) (v : Int)
    (r : Fin SKIP_LIST_LAYERS) :
    ∃ s2, s.insert v r = some s2 ∧
      (s2 = s ∨
        (1 ≤ (if (headOf s 0).isNone then SKIP_LIST_LAYERS else 1 + r.val) ∧
          (if (headOf s 0).isNone then SKIP_LIST_LAYERS else 1 + r.val) ≤ SKIP_LIST_LAYERS ∧
          (∀ k, k < (if (headOf s 0).isNone then SKIP_LIST_LAYERS else 1 + r.val) →
            FrameLayer v (layerOf s k) (headOf s k) (layerOf s2 k) (headOf s2 k)) ∧
          (∀ k, (if (headOf s 0).isNone then SKIP_LIST_LAYERS else 1 + r.val) ≤ k →
            layerOf s2 k = layerOf s k ∧ headOf s2 k = headOf s k))) := by
  obtain ⟨s2, heq, _, hframe⟩ := insert_spec (reachable_skipInv hs) v r
  exact ⟨s2, heq, hframe⟩


/-- Witness for C8 at the concrete reachable state `sTwo`, inserting 7 with
draw 0. -/
theorem insert_frame_condition_witness :
    Reachable sTwo ∧
      ∃ s2, sTwo.insert 7 draw0 = some s2 ∧
        (s2 = sTwo ∨
          (1 ≤ (if (headOf sTwo 0).isNone then SKIP_LIST_LAYERS else 1 + draw0.val) ∧
            (if (headOf sTwo 0).isNone then SKIP_LIST_LAYERS else 1 + draw0.val) ≤
              SKIP_LIST_LAYERS ∧
            (∀ k, k < (if (headOf sTwo 0).isNone then SKIP_LIST_LAYERS else 1 + draw0.val) →
              FrameLayer 7 (layerOf sTwo k) (headOf sTwo k) (layerOf s2 k) (headOf s2 k)) ∧
            (∀ k, (if (headOf sTwo 0).isNone then SKIP_LIST_LAYERS else 1 + draw0.val) ≤ k →
              layerOf s2 k = layerOf sTwo k ∧ headOf s2 k = headOf sTwo k))) :=
  ⟨⟨[(5, draw0), (2, draw1)], by decide⟩,
    insert_frame_condition sTwo ⟨[(5, draw0), (2, draw1)], by decide⟩ 7 draw0⟩


/-- C9: on every reachable state the display traversal succeeds and equals the
pure projection of the per-layer traversal value sequences: the base line is the
base chain's values, and each upper line is `lineOfVals` of the base values
against that layer's chain values.  Two states with identical traversal contents
therefore render identically, and rendering depends on nothing else. -/
theorem render_is_pure_projection (s : SkipList) (hs : Reachable s) :
    ∃ bl v1 v2,
      chainVals (layerOf s 0) (headOf s 0) (layerOf s 0).length = some bl ∧
      chainVals (layerOf s 1) (headOf s 1) (layerOf s 1).length = some v1 ∧
      chainVals (layerOf s 2) (headOf s 2) (layerOf s 2).length = some v2 ∧
      s.render = some ([lineOfVals bl v2, lineOfVals bl v1], bl) :=
  render_spec (reachable_skipInv hs)


/-- Witness for C9 at the concrete reachable state `sTwo`. -/
theorem render_is_pure_projection_witness :
    Reachable sTwo ∧
      ∃ bl v1 v2,
        chainVals (layerOf sTwo 0) (headOf sTwo 0) (layerOf sTwo 0).length = some bl ∧
        chainVals (layerOf sTwo 1) (headOf sTwo 1) (layerOf sTwo 1).length = some v1 ∧
        chainVals (layerOf sTwo 2) (headOf sTwo 2) (layerOf sTwo 2).length = some v2 ∧
        sTwo.render = some ([lineOfVals bl v2, lineOfVals bl v1], bl) :=
  ⟨⟨[(5, draw0), (2, draw1)], by decide⟩,
    render_is_pure_projection sTwo ⟨[(5, draw0), (2, draw1)], by decide⟩⟩


/-- C10: in every reachable state the arena lengths are monotone non-increasing
going up the layers. -/
theorem layer_sizes_monotone (s : SkipList) (hs : Reachable s) :
    (layerOf s 2).length ≤ (layerOf s 1).length ∧
    (layerOf s 1).length ≤ (layerOf s 0).length := by
  obtain ⟨_, _, hsz, _⟩ := reachable_skipInv hs
  exact ⟨hsz 2 (by decide) (by decide), hsz 1 (by decide) (by decide)⟩


/-- Witness for C10 at the concrete reachable state `sTwo`. -/
theorem layer_sizes_monotone_witness :
    Reachable sTwo ∧
      ((layerOf sTwo 2).length ≤ (layerOf sTwo 1).length ∧
      (layerOf sTwo 1).length ≤ (layerOf sTwo 0).length) :=
  ⟨⟨[(5, draw0), (2, draw1)], by decide⟩,
    layer_sizes_monotone sTwo ⟨[(5, draw0), (2, draw1)], by decide⟩⟩

